import Mathlib

/-!
Verification development for the httpseek library: a seekable random-access
reader over HTTP Range requests, together with a block-aligned caching
transport.

The Go sources are shallowly embedded here:
  * `extractMetadata`, `metaEqual` model `extractMetadata` / `Metadata.Equal`
    (the `Metadata` lineage that carries a `Length` field);
  * `readAtHF` models `HTTPFile.ReadAt` (httpseek.go), `readStepHF` models
    `HTTPFile.Read`;
  * `readAtRA` models `ReaderAtHTTP.ReadAt` (httpseek/httpseek.go);
  * `scanRange` models the `fmt.Sscanf(rangeHdr, "bytes=%d-%d", ...)` call of
    `CachedBlockTransport.RoundTrip` (blockcache.go), `roundTrip` models the
    whole `RoundTrip` method (sequential execution; the singleflight group of
    the source collapses to a direct call when there is no concurrency);
  * `memGet`/`memPut` model `MemoryBlockCache`, `mmapGet`/`mmapPut` model
    `MmapBlockCache`.

Bytes are modelled as `Nat`, byte slices as `List Nat`, Go `int64` as `Int`
(the quantities involved are far from the 64-bit boundary, so wrap-around is
irrelevant; `strconv.ParseInt`'s explicit range check is still modelled).
HTTP responses are modelled as a status code, a header list and an in-memory
body; an origin server is a function from the requested byte range to such a
response.
-/

/-- Go `int64` division: truncation toward zero. -/
def goDiv (a b : Int) : Int := Int.tdiv a b

/-- Digit-string evaluation: `some` of the base-10 value when every character
is a digit (used under a nonemptiness check), `none` otherwise. -/
def digitsVal (cs : List Char) : Option Nat :=
  cs.foldl
    (fun acc c =>
      match acc with
      | none => none
      | some v => if c.isDigit then some (v * 10 + (c.toNat - 48)) else none)
    (some 0)

/-- `strconv.ParseInt(s, 10, 64)`: an optional sign followed by at least one
digit, nothing else, with the int64 range check.  Returns `none` whenever the
Go call returns a non-nil error. -/
def parseIntGo (s : String) : Option Int :=
  let cs := s.toList
  let sgn : Bool × List Char :=
    match cs with
    | '-' :: rest => (true, rest)
    | '+' :: rest => (false, rest)
    | _ => (false, cs)
  match sgn.2 with
  | [] => none
  | ds =>
    match digitsVal ds with
    | none => none
    | some v =>
      let n : Int := if sgn.1 then -(v : Int) else (v : Int)
      if n < -(2 ^ 63) ∨ (2 ^ 63 - 1 : Int) < n then none else some n

/-- `http.Header.Get`: value of the first header with the given key, `""` when
absent (keys are used in their canonical MIME form throughout). -/
def hget (h : List (String × String)) (k : String) : String :=
  match h.find? (fun p => p.fst == k) with
  | some p => p.snd
  | none => ""

/-- `strings.Split` for a one-character separator, on the character list of
the string being split. -/
def splitOnChar (sep : Char) (cs : List Char) : List (List Char) :=
  match cs with
  | [] => [[]]
  | c :: rest =>
    let r := splitOnChar sep rest
    if c = sep then [] :: r
    else
      match r with
      | [] => [[c]]
      | h :: t => (c :: h) :: t

/-- The `Metadata` triple of httpmeta: ETag, Last-Modified and the inferred
total length. -/
structure Metadata where
  etag : String
  lastModified : String
  length : Int
deriving DecidableEq

/-- `extractMetadata(h)`: ETag and Last-Modified verbatim; the length comes
from the part of `Content-Range` after `/` when that header is present (and
stays 0 when it does not parse), and from `Content-Length` only when
`Content-Range` is absent. -/
def extractMetadata (h : List (String × String)) : Metadata :=
  let m : Metadata := ⟨hget h "ETag", hget h "Last-Modified", 0⟩
  let cr := hget h "Content-Range"
  if cr ≠ "" then
    match splitOnChar '/' cr.toList with
    | [_, total] =>
      match parseIntGo (String.mk total) with
      | some v => { m with length := v }
      | none => m
    | _ => m
  else
    let cl := hget h "Content-Length"
    if cl ≠ "" then
      match parseIntGo cl with
      | some v => { m with length := v }
      | none => m
    else m

/-- `Metadata.Equal`: fields set on both sides must agree; an absent field
(empty string, or non-positive length) is permissive. -/
def metaEqual (a b : Metadata) : Bool :=
  if a.etag ≠ "" ∧ b.etag ≠ "" ∧ a.etag ≠ b.etag then false
  else if a.lastModified ≠ "" ∧ b.lastModified ≠ "" ∧
      a.lastModified ≠ b.lastModified then false
  else if 0 < a.length ∧ 0 < b.length ∧ a.length ≠ b.length then false
  else true

/-- An HTTP response: status code, headers, and the fully buffered body. -/
structure HttpResp where
  status : Nat
  headers : List (String × String)
  body : List Nat
deriving DecidableEq

/-- The distinct error productions of the read paths.  `remoteChanged` is
modelled from the spec: the distinguished "remote resource changed" error kind
the spec prescribes for a 412 response; no code under src/ produces it. -/
inductive ReadErr where
  | invalidOffset : ReadErr
  | eof : ReadErr
  | unexpectedStatus : Nat → ReadErr
  | metadataMismatch : ReadErr
  | remoteChanged : ReadErr
deriving DecidableEq

/-- Outcome of a positional read: the byte count and error returned, the
byte range of the issued HTTP request (`none` when no request was made), and
the caller's buffer after the call. -/
structure ReadAtOut where
  n : Nat
  err : Option ReadErr
  requested : Option (Int × Int)
  buf : List Nat
deriving DecidableEq

/-- `HTTPFile.ReadAt(p, off)` of httpseek.go, applied to the response `resp`
the HTTP client delivers for the issued Range request.  `io.ReadFull` of an
in-memory body reads `min(want, len(body))` bytes into the prefix of `p`, and
its `ErrUnexpectedEOF`/`io.EOF` shortfall is surfaced as `EOF` by the source. -/
def readAtHF (meta : Metadata) (p : List Nat) (off : Int) (resp : HttpResp) :
    ReadAtOut :=
  if off < 0 then ⟨0, some .invalidOffset, none, p⟩
  else if meta.length ≤ off then ⟨0, some .eof, none, p⟩
  else
    let e0 := off + (p.length : Int) - 1
    let e := if meta.length ≤ e0 then meta.length - 1 else e0
    if resp.status ≠ 206 ∧ resp.status ≠ 200 then
      ⟨0, some (.unexpectedStatus resp.status), some (off, e), p⟩
    else if metaEqual meta (extractMetadata resp.headers) = false then
      ⟨0, some .metadataMismatch, some (off, e), p⟩
    else
      let want := (e - off + 1).toNat
      let n := min want resp.body.length
      ⟨n, if n < want then some .eof else none, some (off, e),
        resp.body.take n ++ p.drop n⟩

/-- `ReaderAtHTTP.ReadAt(p, off)` of httpseek/httpseek.go: as `readAtHF` but
with no negative-offset check and no validator/metadata comparison. -/
def readAtRA (size : Int) (p : List Nat) (off : Int) (resp : HttpResp) :
    ReadAtOut :=
  if size ≤ off then ⟨0, some .eof, none, p⟩
  else
    let e0 := off + (p.length : Int) - 1
    let e := if size ≤ e0 then size - 1 else e0
    if resp.status ≠ 206 ∧ resp.status ≠ 200 then
      ⟨0, some (.unexpectedStatus resp.status), some (off, e), p⟩
    else
      let want := (e - off + 1).toNat
      let n := min want resp.body.length
      ⟨n, if n < want then some .eof else none, some (off, e),
        resp.body.take n ++ p.drop n⟩

/-- `HTTPFile.Read(p)` of httpseek.go: positional read at the cursor `off`,
which advances by the byte count only when the error is nil or `io.EOF`.
Returns the read outcome and the new cursor. -/
def readStepHF (meta : Metadata) (off : Int) (p : List Nat) (resp : HttpResp) :
    ReadAtOut × Int :=
  let r := readAtHF meta p off resp
  (r, if r.err = none ∨ r.err = some .eof then off + (r.n : Int) else off)

/-- `MemoryBlockCache`: a map from block index to the stored byte slice. -/
def MemCache : Type := Int → Option (List Nat)

/-- `MemoryBlockCache.Get`. -/
def memGet (c : MemCache) (b : Int) : Option (List Nat) := c b

/-- `MemoryBlockCache.Put`. -/
def memPut (c : MemCache) (b : Int) (v : List Nat) : MemCache :=
  fun x => if x = b then some v else c x

/-- `NewMemoryBlockCache()`. -/
def memEmpty : MemCache := fun _ => none

/-- The `BlockCache` interface, restricted to the two operations
`CachedBlockTransport.RoundTrip` uses. -/
structure CacheOps (σ : Type) where
  get : σ → Int → Option (List Nat)
  put : σ → Int → List Nat → σ

/-- The in-memory cache as a `BlockCache`. -/
def memOps : CacheOps MemCache := ⟨memGet, memPut⟩

/-- `MmapBlockCache`: a flat byte region of `numBlocks * blockSize` bytes plus
a validity bitmap. -/
structure MmapCache where
  data : List Nat
  blockSize : Int
  numBlocks : Int
  valid : Int → Bool

/-- `MmapBlockCache.Get`: a full `blockSize`-long view of the block's slot
when the validity bit is set. -/
def mmapGet (c : MmapCache) (b : Int) : Option (List Nat) :=
  if b < 0 ∨ c.numBlocks ≤ b then none
  else if c.valid b = false then none
  else some ((c.data.drop (b * c.blockSize).toNat).take c.blockSize.toNat)

/-- `MmapBlockCache.Put`: copy at most `blockSize` bytes into the slot,
zero-fill the remainder of the slot, set the validity bit.  Out-of-range
indices are ignored. -/
def mmapPut (c : MmapCache) (b : Int) (v : List Nat) : MmapCache :=
  if b < 0 ∨ c.numBlocks ≤ b then c
  else
    let start := (b * c.blockSize).toNat
    let bsN := c.blockSize.toNat
    let slot := v.take bsN ++ List.replicate (bsN - v.length) 0
    { c with
      data := c.data.take start ++ slot ++ c.data.drop (start + bsN),
      valid := fun x => if x = b then true else c.valid x }

/-- Outcome of `fmt.Sscanf(rangeHdr, "bytes=%d-%d", &start, &end)`:
`fail` is `n = 0` (non-nil error), `one start` is `n = 1` with a non-nil
error (the second `%d` hit end of input or a non-numeric character — Sscanf
returns a non-nil error in every case where fewer than two operands are
filled), `full start end` is `n = 2` with a nil error. -/
inductive ScanResult where
  | fail : ScanResult
  | one : Int → ScanResult
  | full : Int → Int → ScanResult
deriving DecidableEq

/-- Greedily split a leading run of decimal digits. -/
def takeDigits (cs : List Char) : List Char × List Char :=
  match cs with
  | [] => ([], [])
  | c :: rest =>
    if c.isDigit then
      let r := takeDigits rest
      (c :: r.1, r.2)
    else ([], c :: rest)

/-- A `%d` conversion of `fmt` scanning: optional sign, at least one digit,
int64 range check; returns the value and the unconsumed input. -/
def scanInt (cs : List Char) : Option (Int × List Char) :=
  let sgn : Bool × List Char :=
    match cs with
    | '-' :: r => (true, r)
    | '+' :: r => (false, r)
    | _ => (false, cs)
  match takeDigits sgn.2 with
  | ([], _) => none
  | (ds, r) =>
    match digitsVal ds with
    | none => none
    | some v =>
      let n : Int := if sgn.1 then -(v : Int) else (v : Int)
      if n < -(2 ^ 63) ∨ (2 ^ 63 - 1 : Int) < n then none else some (n, r)

/-- Match a literal character sequence, returning the rest of the input. -/
def matchLit (lit cs : List Char) : Option (List Char) :=
  match lit, cs with
  | [], rest => some rest
  | _ :: _, [] => none
  | l :: ls, c :: rest => if l = c then matchLit ls rest else none

/-- The transport's Range-header scan, `fmt.Sscanf(s, "bytes=%d-%d", ...)`:
the literal `bytes=`, a `%d`, the literal `-`, a `%d`.  Trailing unconsumed
input is not an error. -/
def scanRange (s : String) : ScanResult :=
  match matchLit "bytes=".toList s.toList with
  | none => ScanResult.fail
  | some rest =>
    match scanInt rest with
    | none => ScanResult.fail
    | some (a, r1) =>
      match r1 with
      | '-' :: r2 =>
        match scanInt r2 with
        | none => ScanResult.one a
        | some (b, _) => ScanResult.full a b
      | _ => ScanResult.one a

/-- The `offset` computed by the slicing epilogue of
`CachedBlockTransport.RoundTrip` (negative values clamped to 0). -/
def sliceOff (s blockStart : Int) : Int :=
  if s - blockStart < 0 then 0 else s - blockStart

/-- The `length` computed by the slicing epilogue: the requested extent,
clamped to what the reassembled buffer holds past `offset`, never negative. -/
def sliceLen (combinedLen s e blockStart : Int) : Int :=
  let l0 := e - s + 1
  let l1 :=
    if combinedLen < sliceOff s blockStart + l0 then
      combinedLen - sliceOff s blockStart
    else l0
  if l1 < 0 then 0 else l1

/-- `data := combined[offset : offset+length]` of the slicing epilogue. -/
def sliceCombined (combined : List Nat) (s e blockStart : Int) : List Nat :=
  (combined.drop (sliceOff s blockStart).toNat).take
    (sliceLen (combined.length : Int) s e blockStart).toNat

/-- The split-and-populate loop: the `i`-th missing block receives
`body[i*bs : min(i*bs+bs, len(body))]`; the loop breaks as soon as
`i*bs ≥ len(body)`. -/
def populate {σ : Type} (ops : CacheOps σ) (bs : Int) (body : List Nat) :
    Nat → List Int → σ → σ
  | _, [], c => c
  | i, b :: rest, c =>
    let off : Int := (i : Int) * bs
    if (body.length : Int) ≤ off then c
    else
      let e := if (body.length : Int) < off + bs then (body.length : Int)
        else off + bs
      populate ops bs body (i + 1) rest
        (ops.put c b ((body.drop off.toNat).take (e - off).toNat))

/-- The reassembly loop: concatenate the cached blocks, in index order,
skipping absent ones. -/
def rebuild {σ : Type} (ops : CacheOps σ) (blocks : List Int) (c : σ) :
    List Nat :=
  blocks.foldl
    (fun acc b =>
      match ops.get c b with
      | some d => acc ++ d
      | none => acc) []

/-- Result of one `CachedBlockTransport.RoundTrip` call: the synthesized
status and body (`status = none` on error), the error, the cache afterwards,
how many requests went through the wrapped transport, whether the request was
passed through verbatim, and the coalesced range of the origin fetch. -/
structure RTResult (σ : Type) where
  status : Option Nat
  body : List Nat
  err : Option ReadErr
  cache : σ
  originCalls : Nat
  passthrough : Bool
  fetched : Option (Int × Int)

/-- The needed block indices of the aligned extent of `[s..e]`: the loop
`for b := blockStart; b <= blockEnd; b += bs`, each iterate contributing
`b / bs`. -/
def neededBlocks (bs s e : Int) : List Int :=
  let blockStart := goDiv s bs * bs
  let blockEnd := goDiv e bs * bs
  let numBlocks := goDiv (blockEnd - blockStart) bs + 1
  (List.range numBlocks.toNat).map
    (fun (j : Nat) => goDiv (blockStart + (j : Int) * bs) bs)

/-- The cacheable path of `CachedBlockTransport.RoundTrip`, after the Range
header was scanned to `start = s`, `end = e0` with a nil scan error:
synthesize `end` when `end < start`, align, fetch the coalesced run of
missing blocks, populate, reassemble and slice. -/
def cachedPath {σ : Type} (ops : CacheOps σ) (bs : Int)
    (origin : Int → Int → Nat × List Nat) (c : σ) (s e0 : Int) : RTResult σ :=
  let e := if e0 < s then s + bs - 1 else e0
  let blockStart := goDiv s bs * bs
  let blocks := neededBlocks bs s e
  match blocks.filter (fun b => (ops.get c b).isNone) with
  | [] =>
    ⟨some 206, sliceCombined (rebuild ops blocks c) s e blockStart,
      none, c, 0, false, none⟩
  | m :: rest =>
    let lastB := rest.getLastD m
    let rs := m * bs
    let re := (lastB + 1) * bs - 1
    let res := origin rs re
    if res.fst ≠ 206 ∧ res.fst ≠ 200 then
      ⟨none, [], some (ReadErr.unexpectedStatus res.fst), c, 1, false,
        some (rs, re)⟩
    else
      let c1 := populate ops bs res.snd 0 (m :: rest) c
      ⟨some 206, sliceCombined (rebuild ops blocks c1) s e blockStart,
        none, c1, 1, false, some (rs, re)⟩

/-- `CachedBlockTransport.RoundTrip` with a configured cache, executed
sequentially (`singleflight.Group.Do` runs its function directly here).
`origin` maps the coalesced aligned range to the wrapped transport's
response status and fully read body. -/
def roundTrip {σ : Type} (ops : CacheOps σ) (bsIn : Int)
    (origin : Int → Int → Nat × List Nat) (c : σ) (method rangeHdr : String) :
    RTResult σ :=
  let bs := if bsIn ≤ 0 then 512 else bsIn
  if method ≠ "GET" then ⟨none, [], none, c, 1, true, none⟩
  else
    match scanRange rangeHdr with
    | ScanResult.fail => ⟨none, [], none, c, 1, true, none⟩
    | ScanResult.one _ => ⟨none, [], none, c, 1, true, none⟩
    | ScanResult.full s e0 => cachedPath ops bs origin c s e0

/-- A compliant origin of resource bytes `data`: 206 with exactly the bytes
of the requested range, clamped at end of resource. -/
def stdOrigin (data : List Nat) (s e : Int) : Nat × List Nat :=
  (206, (data.drop s.toNat).take (e - s + 1).toNat)

/-- An origin whose validator precondition fails: every request is answered
with `412 Precondition Failed`. -/
def origin412 : Int → Int → Nat × List Nat := fun _ _ => (412, [])

/-- A 12-byte resource used by concrete scenarios. -/
def resourceBytes12 : List Nat := [0, 1, 2, 3, 4, 5, 6, 7, 8, 9, 10, 11]

/-- C4: a positional read whose origin response is `412 Precondition Failed`
does not fail with a distinguished "remote resource changed" error: both
`HTTPFile.ReadAt` and the caching transport produce the same generic
`unexpected HTTP status` error for 412 that they produce for, e.g., 500 —
contradicting the repository's own tests, which require an error containing
"remote resource changed" on 412. -/
theorem c4_status412_gets_generic_error :
    (readAtHF ⟨"", "", 16⟩ [0, 0, 0, 0] 0 ⟨412, [], []⟩).err
        = some (ReadErr.unexpectedStatus 412) ∧
    (readAtHF ⟨"", "", 16⟩ [0, 0, 0, 0] 0 ⟨500, [], []⟩).err
        = some (ReadErr.unexpectedStatus 500) ∧
    (roundTrip memOps 4 origin412 memEmpty "GET" "bytes=0-3").err
        = some (ReadErr.unexpectedStatus 412) ∧
    some (ReadErr.unexpectedStatus 412) ≠ some ReadErr.remoteChanged := by
  refine ⟨by decide, by decide, by decide, by decide⟩

/-- C7: the open-ended Range form `bytes=<start>-` is NOT served through the
block cache machinery: `fmt.Sscanf` fills only one operand and returns a
non-nil error, so the transport passes the request through verbatim (the
`n == 1` synthesis branch is unreachable), contradicting the code's own
comment "Support open-ended form".  The `end < start` synthesis does work:
`bytes=5-3` with block size 4 is served via the cache with the coalesced
aligned fetch `bytes=4-11` (end synthesized to 5 + 4 - 1 = 8). -/
theorem c7_open_ended_range_is_passed_through :
    scanRange "bytes=100-" = ScanResult.one 100 ∧
    (roundTrip memOps 4 (stdOrigin resourceBytes12) memEmpty "GET"
        "bytes=100-").passthrough = true ∧
    (roundTrip memOps 4 (stdOrigin resourceBytes12) memEmpty "GET"
        "bytes=100-").originCalls = 1 ∧
    (roundTrip memOps 4 (stdOrigin resourceBytes12) memEmpty "GET"
        "bytes=5-3").passthrough = false ∧
    (roundTrip memOps 4 (stdOrigin resourceBytes12) memEmpty "GET"
        "bytes=5-3").fetched = some (4, 11) := by
  refine ⟨by decide, by decide, by decide, by decide, by decide⟩

/-- C6, counterexample: with an unparsable `Content-Range` total (`*`) AND a
valid `Content-Length` of 100, the extracted length is 0, not 100: the code
only falls back to `Content-Length` when the `Content-Range` header is absent
altogether, not when its total fails to parse. -/
theorem c6_counterexample :
    (extractMetadata
        [("Content-Range", "bytes 0-99/*"), ("Content-Length", "100")]).length
      = 0 ∧
    parseIntGo "100" = some 100 ∧ (0 : Int) ≠ 100 := by
  refine ⟨by decide, by decide, by decide⟩

/-- C6, amended: the extracted length is taken from the `Content-Range` total
when that header is present; when it is present but its total does not parse
(or it does not split into exactly two parts at `/`), the length stays 0 and
`Content-Length` is NOT consulted.  `Content-Length` is used only when
`Content-Range` is absent. -/
theorem c6_amended_length_extraction :
    (∀ (h : List (String × String)) (a t : List Char) (L : Int),
      hget h "Content-Range" ≠ "" →
      splitOnChar '/' (hget h "Content-Range").toList = [a, t] →
      parseIntGo (String.mk t) = some L →
      (extractMetadata h).length = L) ∧
    (∀ (h : List (String × String)) (a t : List Char),
      hget h "Content-Range" ≠ "" →
      splitOnChar '/' (hget h "Content-Range").toList = [a, t] →
      parseIntGo (String.mk t) = none →
      (extractMetadata h).length = 0) ∧
    (∀ (h : List (String × String)) (L : Int),
      hget h "Content-Range" = "" →
      parseIntGo (hget h "Content-Length") = some L →
      (extractMetadata h).length = L) := by
  refine ⟨?_, ?_, ?_⟩
  · intro h a t L hcr hsplit hparse
    unfold extractMetadata
    rw [if_pos hcr, hsplit]
    dsimp only
    rw [hparse]
  · intro h a t hcr hsplit hparse
    unfold extractMetadata
    rw [if_pos hcr, hsplit]
    dsimp only
    rw [hparse]
  · intro h L hcr hcl
    unfold extractMetadata
    rw [if_neg (by simp [hcr])]
    have hne : hget h "Content-Length" ≠ "" := by
      intro hempty
      rw [hempty] at hcl
      exact Option.noConfusion ((by decide : parseIntGo "" = none) ▸ hcl)
    rw [if_pos hne, hcl]

/-- C6, witness for the amended theorem at concrete header sets: a parsable
total wins, an unparsable total leaves 0, and Content-Length is used when
Content-Range is absent. -/
theorem c6_amended_length_extraction_witness :
    (extractMetadata
        [("Content-Range", "bytes 0-99/4096"), ("Content-Length", "100")]
      ).length = 4096 ∧
    (extractMetadata [("Content-Range", "bytes 0-4/xyz")]).length = 0 ∧
    (extractMetadata [("Content-Length", "4096")]).length = 4096 :=
  ⟨c6_amended_length_extraction.1 _ "bytes 0-99".toList "4096".toList 4096
      (by decide) (by decide) (by decide),
    c6_amended_length_extraction.2.1 _ "bytes 0-4".toList "xyz".toList
      (by decide) (by decide) (by decide),
    c6_amended_length_extraction.2.2 _ 4096 (by decide) (by decide)⟩

/-- C2, counterexample: on the 16-byte resource, a 4-byte read at offset 14
whose response body supplies the clamped range `bytes=14-15` (bytes of "ef")
returns `(2, nil)`, not `(2, EOF)`: `io.ReadFull` fills the clamped slice
`p[:2]` completely, so no error is produced. -/
theorem c2_counterexample_tail_read_err_is_nil :
    readAtHF ⟨"", "", 16⟩ [0, 0, 0, 0] 14
        ⟨206, [("Content-Range", "bytes 14-15/16")], [101, 102]⟩
      = ⟨2, none, some (14, 15), [101, 102, 0, 0]⟩ ∧
    (none : Option ReadErr) ≠ some ReadErr.eof :=
  ⟨by decide, by decide⟩

/-- C2, amended: a read of `b` at `o` with `0 ≤ o < N` and `o + len(b) > N`
whose HTTP body supplies exactly the clamped range returns `(N - o, nil)` —
the valid tail bytes with a nil error, not EOF; EOF is produced only when the
body falls short of the clamped range (and by the next read at `o ≥ N`). -/
theorem c2_amended_tail_read (meta : Metadata) (p : List Nat) (o : Int)
    (resp : HttpResp) (h0 : 0 ≤ o) (h1 : o < meta.length)
    (h2 : meta.length < o + (p.length : Int)) (hst : resp.status = 206)
    (hmeta : metaEqual meta (extractMetadata resp.headers) = true)
    (hbody : (resp.body.length : Int) = meta.length - o) :
    readAtHF meta p o resp
      = ⟨(meta.length - o).toNat, none, some (o, meta.length - 1),
          resp.body ++ p.drop (meta.length - o).toNat⟩ := by
  simp only [readAtHF]
  rw [if_neg (by omega), if_neg (by omega), if_neg (by simp [hst]),
    if_neg (by simp [hmeta]),
    if_pos (show meta.length ≤ o + (p.length : Int) - 1 by omega)]
  rw [show meta.length - 1 - o + 1 = meta.length - o from by ring]
  rw [show min (meta.length - o).toNat resp.body.length
      = (meta.length - o).toNat from by omega]
  rw [if_neg (by omega)]
  rw [show (meta.length - o).toNat = resp.body.length from by omega,
    List.take_length]

/-- C2, witness for the amended theorem: a 26-byte resource, a 10-byte buffer
at offset 20, body = the 6 tail bytes; the read returns `(6, nil)`. -/
theorem c2_amended_tail_read_witness :
    readAtHF ⟨"", "", 26⟩ [0, 0, 0, 0, 0, 0, 0, 0, 0, 0] 20
        ⟨206, [], [65, 66, 67, 68, 69, 70]⟩
      = ⟨6, none, some (20, 25), [65, 66, 67, 68, 69, 70, 0, 0, 0, 0]⟩ := by
  rw [c2_amended_tail_read ⟨"", "", 26⟩ _ 20 ⟨206, [], [65, 66, 67, 68, 69, 70]⟩
    (by decide) (by decide) (by decide) (by decide) (by decide) (by decide)]
  decide

/-- C3, counterexample: `ReaderAtHTTP.ReadAt` performs no negative-offset
check: at offset `-1` on a 26-byte resource it issues the Range request
`bytes=-1-6` (so a request IS performed) and, when the server happens to
answer 206 with 8 bytes, returns them with a nil error instead of failing. -/
theorem c3_counterexample_negative_offset_issues_request :
    readAtRA 26 [0, 0, 0, 0, 0, 0, 0, 0] (-1)
        ⟨206, [], [1, 2, 3, 4, 5, 6, 7, 8]⟩
      = ⟨8, none, some (-1, 6), [1, 2, 3, 4, 5, 6, 7, 8]⟩ ∧
    (some ((-1 : Int), (6 : Int))).isSome = true :=
  ⟨by decide, by decide⟩

/-- C3, amended: `HTTPFile.ReadAt` errors with the invalid-offset error on a
negative offset, issuing no request; both readers return `(0, EOF)` with no
request at offsets at or past the end; but `ReaderAtHTTP.ReadAt` has no
negative-offset check and issues a range request whenever `off < size`,
negative offsets included. -/
theorem c3_amended_offset_validation :
    (∀ (meta : Metadata) (p : List Nat) (off : Int) (resp : HttpResp),
      off < 0 → readAtHF meta p off resp
        = ⟨0, some ReadErr.invalidOffset, none, p⟩) ∧
    (∀ (meta : Metadata) (p : List Nat) (off : Int) (resp : HttpResp),
      0 ≤ off → meta.length ≤ off → readAtHF meta p off resp
        = ⟨0, some ReadErr.eof, none, p⟩) ∧
    (∀ (size : Int) (p : List Nat) (off : Int) (resp : HttpResp),
      size ≤ off → readAtRA size p off resp
        = ⟨0, some ReadErr.eof, none, p⟩) ∧
    (∀ (size : Int) (p : List Nat) (off : Int) (resp : HttpResp),
      off < size → (readAtRA size p off resp).requested.isSome = true) := by
  refine ⟨?_, ?_, ?_, ?_⟩
  · intro meta p off resp h
    simp only [readAtHF]
    rw [if_pos h]
  · intro meta p off resp h0 h1
    simp only [readAtHF]
    rw [if_neg (by omega), if_pos h1]
  · intro size p off resp h
    simp only [readAtRA]
    rw [if_pos h]
  · intro size p off resp h
    simp only [readAtRA]
    rw [if_neg (by omega)]
    split
    · rfl
    · rfl

/-- C3, witness for the amended theorem at concrete inputs, including the
claim's own scenario `ReadAt(buf[0:8], 26)` on a 26-byte resource. -/
theorem c3_amended_offset_validation_witness :
    readAtHF ⟨"", "", 26⟩ [0, 0] (-3) ⟨206, [], []⟩
      = ⟨0, some ReadErr.invalidOffset, none, [0, 0]⟩ ∧
    readAtHF ⟨"", "", 26⟩ [0, 0, 0, 0, 0, 0, 0, 0] 26 ⟨206, [], []⟩
      = ⟨0, some ReadErr.eof, none, [0, 0, 0, 0, 0, 0, 0, 0]⟩ ∧
    readAtRA 26 [0, 0, 0, 0, 0, 0, 0, 0] 26 ⟨206, [], []⟩
      = ⟨0, some ReadErr.eof, none, [0, 0, 0, 0, 0, 0, 0, 0]⟩ ∧
    (readAtRA 26 [0, 0] 5 ⟨206, [], [9, 9]⟩).requested.isSome = true :=
  ⟨c3_amended_offset_validation.1 _ _ _ _ (by decide),
    c3_amended_offset_validation.2.1 _ _ _ _ (by decide) (by decide),
    c3_amended_offset_validation.2.2.1 _ _ _ _ (by decide),
    c3_amended_offset_validation.2.2.2 26 [0, 0] 5 _ (by decide)⟩

/-- C10: `HTTPFile.Read` advances its cursor by the returned byte count
exactly when the positional read's error is nil or EOF; on any other error
the cursor is unchanged, so the failed read can be retried at the same
position. -/
theorem c10_cursor_advances_only_on_nil_or_eof (meta : Metadata) (off : Int)
    (p : List Nat) (resp : HttpResp) :
    ((readStepHF meta off p resp).1.err ≠ none →
      (readStepHF meta off p resp).1.err ≠ some ReadErr.eof →
      (readStepHF meta off p resp).2 = off) ∧
    ((readStepHF meta off p resp).1.err = none ∨
        (readStepHF meta off p resp).1.err = some ReadErr.eof →
      (readStepHF meta off p resp).2
        = off + ((readStepHF meta off p resp).1.n : Int)) := by
  dsimp only [readStepHF]
  constructor
  · intro h1 h2
    rw [if_neg]
    rintro (h | h)
    · exact h1 h
    · exact h2 h
  · intro h
    rw [if_pos h]

/-- C10, witness: a read whose origin answers 500 copies no bytes and leaves
the cursor at its old position 3. -/
theorem c10_cursor_advances_only_on_nil_or_eof_witness :
    (readStepHF ⟨"", "", 16⟩ 3 [0, 0] ⟨500, [], []⟩).2 = 3 :=
  (c10_cursor_advances_only_on_nil_or_eof ⟨"", "", 16⟩ 3 [0, 0]
    ⟨500, [], []⟩).1 (by decide) (by decide)

/-- Writing `n` bytes into the front of `p` leaves everything from position
`k ≥ n` unchanged. -/
theorem overwrite_frame (body p : List Nat) (n k : Nat)
    (hn : n ≤ body.length) (hk : n ≤ k) :
    (body.take n ++ p.drop n).drop k = p.drop k := by
  have hlen : (body.take n).length = n := by
    rw [List.length_take]
    omega
  rw [show k = (body.take n).length + (k - n) from by omega, List.drop_append,
    List.drop_drop]
  congr 1
  omega

/-- Writing `n ≤ len(p)` bytes into the front of `p` preserves its length. -/
theorem overwrite_length (body p : List Nat) (n : Nat)
    (hn : n ≤ body.length) (hp : n ≤ p.length) :
    (body.take n ++ p.drop n).length = p.length := by
  rw [List.length_append, List.length_take, List.length_drop]
  omega

/-- C8: a positional read writes only within the prefix
`b[0 : min(len(b), size-o)]`: for every offset, buffer and origin response,
the buffer keeps its length and every byte at or past that bound is
unchanged — for `HTTPFile.ReadAt` and `ReaderAtHTTP.ReadAt` alike. -/
theorem c8_readAt_writes_only_valid_prefix :
    (∀ (meta : Metadata) (p : List Nat) (off : Int) (resp : HttpResp),
      (readAtHF meta p off resp).buf.length = p.length ∧
      (readAtHF meta p off resp).buf.drop
          ((min (p.length : Int) (meta.length - off)).toNat)
        = p.drop ((min (p.length : Int) (meta.length - off)).toNat)) ∧
    (∀ (size : Int) (p : List Nat) (off : Int) (resp : HttpResp),
      (readAtRA size p off resp).buf.length = p.length ∧
      (readAtRA size p off resp).buf.drop
          ((min (p.length : Int) (size - off)).toNat)
        = p.drop ((min (p.length : Int) (size - off)).toNat)) := by
  constructor
  · intro meta p off resp
    simp only [readAtHF]
    rcases lt_or_le off 0 with hoff | hoff
    · rw [if_pos hoff]
      exact ⟨rfl, rfl⟩
    rw [if_neg (by omega)]
    rcases le_or_lt meta.length off with hN | hN
    · rw [if_pos hN]
      exact ⟨rfl, rfl⟩
    rw [if_neg (by omega)]
    by_cases hst : resp.status ≠ 206 ∧ resp.status ≠ 200
    · rw [if_pos hst]
      exact ⟨rfl, rfl⟩
    rw [if_neg hst]
    by_cases hm : metaEqual meta (extractMetadata resp.headers) = false
    · rw [if_pos hm]
      exact ⟨rfl, rfl⟩
    rw [if_neg hm]
    dsimp only
    have hE1 : (if meta.length ≤ off + (p.length : Int) - 1 then meta.length - 1
        else off + (p.length : Int) - 1) - off + 1
        = min (p.length : Int) (meta.length - off) := by
      split <;> omega
    rw [hE1]
    constructor
    · exact overwrite_length _ _ _ (min_le_right _ _) (by omega)
    · exact overwrite_frame _ _ _ _ (min_le_right _ _) (min_le_left _ _)
  · intro size p off resp
    simp only [readAtRA]
    rcases le_or_lt size off with hN | hN
    · rw [if_pos hN]
      exact ⟨rfl, rfl⟩
    rw [if_neg (by omega)]
    by_cases hst : resp.status ≠ 206 ∧ resp.status ≠ 200
    · rw [if_pos hst]
      exact ⟨rfl, rfl⟩
    rw [if_neg hst]
    dsimp only
    have hE1 : (if size ≤ off + (p.length : Int) - 1 then size - 1
        else off + (p.length : Int) - 1) - off + 1
        = min (p.length : Int) (size - off) := by
      split <;> omega
    rw [hE1]
    constructor
    · exact overwrite_length _ _ _ (min_le_right _ _) (by omega)
    · exact overwrite_frame _ _ _ _ (min_le_right _ _) (min_le_left _ _)

/-- C9: the reassembly-and-slice epilogue is total and yields exactly the
caller's `[start..end]` subrange of the concatenated present blocks, clamped
to the buffer (empty when the buffer does not reach `start`); and under the
reachable-state bounds (aligned `blockStart`, blocks no longer than the
capacity) the Go slice indices `offset` and `offset+length` stay within
`[0, cap]`, so `combined[offset : offset+length]` never faults. -/
theorem c9_slice_is_total_clamped_subrange :
    (∀ (combined : List Nat) (s e blockStart : Int),
      sliceCombined combined s e blockStart
        = (combined.drop (s - blockStart).toNat).take (e - s + 1).toNat) ∧
    (∀ (combined : List Nat) (s e bs cap : Int), 0 < bs → 0 ≤ s → s ≤ e →
      bs ≤ cap → (combined.length : Int) ≤ cap →
      0 ≤ sliceOff s (goDiv s bs * bs) ∧
      0 ≤ sliceLen (combined.length : Int) s e (goDiv s bs * bs) ∧
      sliceOff s (goDiv s bs * bs)
          + sliceLen (combined.length : Int) s e (goDiv s bs * bs) ≤ cap) := by
  constructor
  · intro combined s e blockStart
    unfold sliceCombined
    have hoff : (sliceOff s blockStart).toNat = (s - blockStart).toNat := by
      unfold sliceOff
      split <;> omega
    rw [hoff, List.take_eq_take]
    simp only [List.length_drop, sliceLen, sliceOff]
    split_ifs <;> omega
  · intro combined s e bs cap hbs hs hse hcap hlen
    have hdiv : goDiv s bs = s / bs := Int.tdiv_eq_ediv hs (le_of_lt hbs)
    have hmod : s - goDiv s bs * bs = s % bs := by
      rw [hdiv, Int.emod_def]
      ring
    have h0 : 0 ≤ s % bs := Int.emod_nonneg s (by omega)
    have h1 : s % bs < bs := Int.emod_lt_of_pos s hbs
    simp only [sliceLen, sliceOff]
    split_ifs <;> omega

/-- C9, witness for the bounds conjunct at a concrete state. -/
theorem c9_slice_witness :
    0 ≤ sliceOff 5 (goDiv 5 4 * 4) ∧
    0 ≤ sliceLen ((([0, 1, 2] : List Nat).length : Int)) 5 6 (goDiv 5 4 * 4) ∧
    sliceOff 5 (goDiv 5 4 * 4)
        + sliceLen ((([0, 1, 2] : List Nat).length : Int)) 5 6 (goDiv 5 4 * 4)
      ≤ 8 :=
  c9_slice_is_total_clamped_subrange.2 [0, 1, 2] 5 6 4 8 (by decide) (by decide)
    (by decide) (by decide) (by decide)

/-- Truncating division cancels an exact multiple. -/
theorem goDiv_mul_add (q j bs : Int) (hbs : bs ≠ 0) :
    goDiv (q * bs + j * bs) bs = q + j := by
  unfold goDiv
  rw [show q * bs + j * bs = (q + j) * bs from by ring]
  exact Int.mul_tdiv_cancel _ hbs

/-- The needed blocks are the consecutive run from `s/bs` to `e/bs`. -/
theorem neededBlocks_eq (bs s e : Int) (hbs : 0 < bs) :
    neededBlocks bs s e
      = (List.range (goDiv e bs - goDiv s bs + 1).toNat).map
          (fun (j : Nat) => goDiv s bs + (j : Int)) := by
  unfold neededBlocks
  dsimp only
  have hnum : goDiv (goDiv e bs * bs - goDiv s bs * bs) bs
      = goDiv e bs - goDiv s bs := by
    unfold goDiv
    rw [show Int.tdiv e bs * bs - Int.tdiv s bs * bs
        = (Int.tdiv e bs - Int.tdiv s bs) * bs from by ring]
    exact Int.mul_tdiv_cancel _ (by omega)
  rw [hnum]
  exact List.map_congr_left fun j _ => goDiv_mul_add _ _ _ (by omega)

/-- Membership in a consecutive integer run. -/
theorem mem_blockRun {q : Int} {k : Nat} {b : Int} :
    b ∈ (List.range k).map (fun (j : Nat) => q + (j : Int))
      ↔ q ≤ b ∧ b < q + k := by
  simp only [List.mem_map, List.mem_range]
  constructor
  · rintro ⟨j, hj, rfl⟩
    omega
  · intro h
    exact ⟨(b - q).toNat, by omega, by omega⟩

/-- A consecutive integer run is strictly increasing. -/
theorem pairwise_blockRun (q : Int) (k : Nat) :
    ((List.range k).map (fun (j : Nat) => q + (j : Int))).Pairwise (· < ·) := by
  refine List.Pairwise.map _ (fun a b hab => ?_) (List.pairwise_lt_range k)
  omega

/-- In a strictly increasing integer list `m :: rest`, the last element
dominates every element and exceeds `m` by at least the length of `rest`. -/
theorem pairwise_lt_getLastD (m : Int) (rest : List Int)
    (hp : (m :: rest).Pairwise (· < ·)) :
    (rest.length : Int) ≤ rest.getLastD m - m ∧
    ∀ x ∈ m :: rest, m ≤ x ∧ x ≤ rest.getLastD m := by
  induction rest generalizing m with
  | nil =>
    refine ⟨by simp, ?_⟩
    intro x hx
    simp only [List.mem_singleton] at hx
    simp [hx]
  | cons b t ih =>
    have hmb : m < b := (List.pairwise_cons.mp hp).1 b (by simp)
    have hp' : (b :: t).Pairwise (· < ·) := (List.pairwise_cons.mp hp).2
    obtain ⟨ih1, ih2⟩ := ih b hp'
    have hlast : (b :: t).getLastD m = t.getLastD b := List.getLastD_cons m b t
    refine ⟨?_, ?_⟩
    · rw [hlast]
      have hbl : b ≤ t.getLastD b := (ih2 b (by simp)).2
      simp only [List.length_cons]
      push_cast
      omega
    · intro x hx
      rw [hlast]
      rcases List.mem_cons.mp hx with rfl | hx'
      · exact ⟨le_refl x, by have := (ih2 b (by simp)).2; omega⟩
      · obtain ⟨h1, h2⟩ := ih2 x hx'
        exact ⟨by omega, h2⟩

/-- Blocks already present in the in-memory cache stay present through a
populate pass (puts only add or replace entries). -/
theorem populate_preserves (bs : Int) (body : List Nat) (l : List Int) :
    ∀ (i : Nat) (c : MemCache) (b : Int),
      (memGet c b).isSome = true →
      (memGet (populate memOps bs body i l c) b).isSome = true := by
  induction l with
  | nil => intro i c b h; exact h
  | cons x rest ih =>
    intro i c b h
    simp only [populate]
    split
    · exact h
    · refine ih (i + 1) _ b ?_
      by_cases hbx : b = x
      · subst hbx
        simp [memGet, memOps, memPut]
      · simpa [memGet, memOps, memPut, hbx] using h

/-- A populate pass leaves blocks outside its list untouched. -/
theorem populate_not_mem (bs : Int) (body : List Nat) (l : List Int) :
    ∀ (i : Nat) (c : MemCache) (b : Int), b ∉ l →
      memGet (populate memOps bs body i l c) b = memGet c b := by
  induction l with
  | nil => intro i c b _; rfl
  | cons x rest ih =>
    intro i c b hb
    have hbx : b ≠ x := fun h => hb (h ▸ List.mem_cons_self x rest)
    have hbr : b ∉ rest := fun h => hb (List.mem_cons_of_mem x h)
    simp only [populate]
    split
    · rfl
    · rw [ih (i + 1) _ b hbr]
      simp [memGet, memOps, memPut, hbx]

/-- When the fetched body covers every offset of the missing list, a populate
pass stores every listed block. -/
theorem populate_stores (bs : Int) (body : List Nat) (l : List Int) :
    ∀ (i : Nat) (c : MemCache),
      (∀ j : Nat, j < l.length →
        ((i + j : Nat) : Int) * bs < (body.length : Int)) →
      ∀ b ∈ l, (memGet (populate memOps bs body i l c) b).isSome = true := by
  induction l with
  | nil => intro i c _ b hb; cases hb
  | cons x rest ih =>
    intro i c H b hb
    have h0 : ((i : Int)) * bs < (body.length : Int) := by
      simpa using H 0 (by simp)
    simp only [populate]
    rw [if_neg (not_le.mpr h0)]
    rcases List.mem_cons.mp hb with rfl | hbr
    · exact populate_preserves bs body rest (i + 1) _ b
        (by simp [memGet, memOps, memPut])
    · refine ih (i + 1) _ (fun j hj => ?_) b hbr
      have hH := H (j + 1) (by simpa using Nat.succ_lt_succ hj)
      have hcast : ((i + (j + 1) : Nat) : Int) = ((i + 1 + j : Nat) : Int) := by
        push_cast
        ring
      rwa [hcast] at hH

/-- The value a populate pass stores for the `j`-th block of its list: the
`j`-th `blockSize`-piece of the body, clamped at the body's end. -/
theorem populate_get_val (bs : Int) (body : List Nat) (l : List Int) :
    ∀ (i : Nat) (c : MemCache) (j : Nat) (hj : j < l.length),
      l.Pairwise (· < ·) →
      (∀ j' : Nat, j' ≤ j →
        ((i + j' : Nat) : Int) * bs < (body.length : Int)) →
      memGet (populate memOps bs body i l c) (l.get ⟨j, hj⟩)
        = some ((body.drop (((i + j : Nat) : Int) * bs).toNat).take
            ((min (((i + j : Nat) : Int) * bs + bs) (body.length : Int))
              - ((i + j : Nat) : Int) * bs).toNat) := by
  induction l with
  | nil => intro i c j hj; exact absurd hj (Nat.not_lt_zero j)
  | cons x rest ih =>
    intro i c j hj hp H
    have h0 : ((i : Int)) * bs < (body.length : Int) := by
      simpa using H 0 (Nat.zero_le j)
    simp only [populate]
    rw [if_neg (not_le.mpr h0)]
    cases j with
    | zero =>
      show memGet _ x = _
      have hnot : x ∉ rest := by
        intro hmem
        have := (List.pairwise_cons.mp hp).1 x hmem
        omega
      rw [populate_not_mem bs body rest (i + 1) _ x hnot]
      simp only [memGet, memOps, memPut, if_pos rfl]
      have hcast : ((i + 0 : Nat) : Int) = (i : Int) := by simp
      rw [hcast]
      have he : (if (body.length : Int) < (i : Int) * bs + bs
            then (body.length : Int) else (i : Int) * bs + bs)
          = min ((i : Int) * bs + bs) (body.length : Int) := by
        rcases le_or_lt ((i : Int) * bs + bs) (body.length : Int) with h | h
        · rw [min_eq_left h, if_neg (not_lt.mpr h)]
        · rw [min_eq_right (le_of_lt h), if_pos h]
      rw [he]
      simp
    | succ j' =>
      show memGet _ (rest.get ⟨j', Nat.lt_of_succ_lt_succ hj⟩) = _
      have hp' : rest.Pairwise (· < ·) := (List.pairwise_cons.mp hp).2
      rw [ih (i + 1) _ j' (Nat.lt_of_succ_lt_succ hj) hp' (fun j'' hj'' => by
        have hH := H (j'' + 1) (by omega)
        have hcast : ((i + (j'' + 1) : Nat) : Int)
            = ((i + 1 + j'' : Nat) : Int) := by
          push_cast
          ring
        rwa [hcast] at hH)]
      have hcast : ((i + 1 + j' : Nat) : Int) = ((i + (j' + 1) : Nat) : Int) := by
        push_cast
        ring
      rw [hcast]

/-- Length of a compliant origin's body: the requested extent, clamped at the
end of the resource. -/
theorem stdOrigin_len (data : List Nat) (a b : Int) :
    (stdOrigin data a b).snd.length
      = min (b - a + 1).toNat (data.length - a.toNat) := by
  simp [stdOrigin, List.length_take, List.length_drop]

/-- With a positive configured block size, a GET with a fully scanned Range
header takes the cacheable path. -/
theorem roundTrip_cacheable {σ : Type} (ops : CacheOps σ) (bsIn : Int)
    (origin : Int → Int → Nat × List Nat) (c : σ) (rangeHdr : String)
    (s e0 : Int) (hbs : 0 < bsIn)
    (hscan : scanRange rangeHdr = ScanResult.full s e0) :
    roundTrip ops bsIn origin c "GET" rangeHdr
      = cachedPath ops bsIn origin c s e0 := by
  simp only [roundTrip]
  rw [if_neg (show ¬ (("GET" : String) ≠ "GET") by simp), hscan]
  dsimp only
  rw [if_neg (show ¬ bsIn ≤ 0 by omega)]

/-- When every needed block is already present, the cacheable path issues no
origin request and leaves the cache unchanged. -/
theorem cachedPath_all_hit {σ : Type} (ops : CacheOps σ) (bs : Int)
    (origin : Int → Int → Nat × List Nat) (c : σ) (s e : Int) (hse : s ≤ e)
    (hall : ∀ b ∈ neededBlocks bs s e, (ops.get c b).isSome = true) :
    cachedPath ops bs origin c s e
      = ⟨some 206,
          sliceCombined (rebuild ops (neededBlocks bs s e) c) s e
            (goDiv s bs * bs), none, c, 0, false, none⟩ := by
  unfold cachedPath
  dsimp only
  rw [if_neg (not_lt.mpr hse)]
  have hfil : (neededBlocks bs s e).filter (fun b => (ops.get c b).isNone)
      = [] := by
    rw [List.filter_eq_nil_iff]
    intro b hb hno
    have h := hall b hb
    rw [Option.isNone_iff_eq_none] at hno
    rw [hno] at h
    exact Bool.noConfusion h
  rw [hfil]

/-- The core of C1: a cacheable request whose aligned extent lies inside the
resource succeeds and leaves every needed block present in the in-memory
cache. -/
theorem cachedPath_covers (bs : Int) (hbs : 0 < bs) (data : List Nat)
    (c : MemCache) (s e : Int) (hs : 0 ≤ s) (hse : s ≤ e)
    (hin : goDiv e bs * bs < (data.length : Int)) :
    (cachedPath memOps bs (stdOrigin data) c s e).err = none ∧
    (cachedPath memOps bs (stdOrigin data) c s e).status = some 206 ∧
    (cachedPath memOps bs (stdOrigin data) c s e).passthrough = false ∧
    ∀ b : Int, goDiv s bs ≤ b → b ≤ goDiv e bs →
      (memGet (cachedPath memOps bs (stdOrigin data) c s e).cache b).isSome
        = true := by
  have hq0 : 0 ≤ goDiv s bs := by
    rw [goDiv, Int.tdiv_eq_ediv hs (le_of_lt hbs)]
    exact Int.ediv_nonneg hs (le_of_lt hbs)
  have hqq : goDiv s bs ≤ goDiv e bs := by
    rw [goDiv, goDiv, Int.tdiv_eq_ediv hs (le_of_lt hbs),
      Int.tdiv_eq_ediv (by omega) (le_of_lt hbs)]
    exact Int.ediv_le_ediv hbs hse
  unfold cachedPath
  dsimp only
  rw [if_neg (not_lt.mpr hse), neededBlocks_eq bs s e hbs]
  have hmemiff : ∀ b : Int,
      (b ∈ (List.range (goDiv e bs - goDiv s bs + 1).toNat).map
          (fun (j : Nat) => goDiv s bs + (j : Int)))
        ↔ goDiv s bs ≤ b ∧ b ≤ goDiv e bs := by
    intro b
    rw [mem_blockRun]
    omega
  cases hfil : ((List.range (goDiv e bs - goDiv s bs + 1).toNat).map
      (fun (j : Nat) => goDiv s bs + (j : Int))).filter
      (fun b => (memOps.get c b).isNone) with
  | nil =>
    refine ⟨rfl, rfl, rfl, ?_⟩
    intro b hb1 hb2
    have hbmem := (hmemiff b).mpr ⟨hb1, hb2⟩
    cases hcb : memGet c b with
    | some v => simp [hcb]
    | none =>
      exfalso
      have : b ∈ (((List.range (goDiv e bs - goDiv s bs + 1).toNat).map
          (fun (j : Nat) => goDiv s bs + (j : Int))).filter
          (fun b => (memOps.get c b).isNone)) :=
        List.mem_filter.mpr ⟨hbmem, by
          show (memGet c b).isNone = true
          rw [hcb]
          rfl⟩
      rw [hfil] at this
      cases this
  | cons m rest =>
    dsimp only
    rw [if_neg (by simp [stdOrigin])]
    refine ⟨rfl, rfl, rfl, ?_⟩
    intro b hb1 hb2
    have hbmem := (hmemiff b).mpr ⟨hb1, hb2⟩
    -- facts about the missing run
    have hpw : ((List.range (goDiv e bs - goDiv s bs + 1).toNat).map
        (fun (j : Nat) => goDiv s bs + (j : Int))).Pairwise (· < ·) :=
      pairwise_blockRun _ _
    have hpwm : (m :: rest).Pairwise (· < ·) := by
      rw [← hfil]
      exact List.Pairwise.sublist (List.filter_sublist _) hpw
    have hsub : ∀ x ∈ m :: rest, goDiv s bs ≤ x ∧ x ≤ goDiv e bs := by
      intro x hx
      rw [← hfil] at hx
      exact (hmemiff x).mp (List.mem_of_mem_filter hx)
    obtain ⟨hlen_le, hbounds⟩ := pairwise_lt_getLastD m rest hpwm
    have hm_ge : 0 ≤ m := le_trans hq0 (hsub m (List.mem_cons_self m rest)).1
    have hml : m ≤ rest.getLastD m :=
      (hbounds m (List.mem_cons_self m rest)).2
    have hlast_le : rest.getLastD m ≤ goDiv e bs :=
      (hsub _ (List.getLastD_mem_cons rest m)).2
    -- every offset of the missing run is inside the fetched body
    have hbody : ∀ j : Nat, j < (m :: rest).length →
        ((0 + j : Nat) : Int) * bs
          < ((stdOrigin data (m * bs) ((rest.getLastD m + 1) * bs - 1)
              ).snd.length : Int) := by
      intro j hj
      have hj' : (j : Int) ≤ rest.getLastD m - m := by
        have : (j : Int) ≤ (rest.length : Int) := by
          simp only [List.length_cons] at hj
          exact_mod_cast Nat.lt_succ_iff.mp hj
        omega
      have hlbs : rest.getLastD m * bs < (data.length : Int) :=
        lt_of_le_of_lt
          (mul_le_mul_of_nonneg_right hlast_le (le_of_lt hbs)) hin
      have hlen' := stdOrigin_len data (m * bs) ((rest.getLastD m + 1) * bs - 1)
      have hrs : ((m * bs).toNat : Int) = m * bs :=
        Int.toNat_of_nonneg (mul_nonneg hm_ge (le_of_lt hbs))
      have hA : (((rest.getLastD m + 1) * bs - 1 - m * bs + 1).toNat : Int)
          = (rest.getLastD m + 1 - m) * bs := by
        have : (rest.getLastD m + 1) * bs - 1 - m * bs + 1
            = (rest.getLastD m + 1 - m) * bs := by ring
        rw [this]
        exact Int.toNat_of_nonneg (mul_nonneg (by omega) (le_of_lt hbs))
      have hjbs : (j : Int) * bs ≤ (rest.getLastD m - m) * bs :=
        mul_le_mul_of_nonneg_right hj' (le_of_lt hbs)
      have hstep : (rest.getLastD m - m) * bs + bs
          = (rest.getLastD m + 1 - m) * bs := by ring
      have hstep2 : (rest.getLastD m - m) * bs + m * bs
          = rest.getLastD m * bs := by ring
      -- body length as an Int, bounded below
      have : min ((rest.getLastD m + 1 - m) * bs)
            ((data.length : Int) - m * bs)
          ≤ ((stdOrigin data (m * bs)
              ((rest.getLastD m + 1) * bs - 1)).snd.length : Int) := by
        rw [hlen']
        omega
      simp only [Nat.zero_add]
      omega
    cases hcb : memGet c b with
    | some v =>
      exact populate_preserves bs _ (m :: rest) 0 c b (by simp [hcb])
    | none =>
      have hbf : b ∈ (m :: rest) := by
        rw [← hfil]
        refine List.mem_filter.mpr ⟨hbmem, ?_⟩
        show (memGet c b).isNone = true
        rw [hcb]
        rfl
      exact populate_stores bs _ (m :: rest) 0 c hbody b hbf

/-- C1: for an aligned range whose blocks lie inside the resource, a
successful round trip through the caching transport leaves every intersecting
block index present in the in-memory cache, and an identical follow-up
request is answered from the cache with zero requests through the wrapped
transport. -/
theorem c1_aligned_range_cached_then_hit_free
    (bs : Int) (hbs : 0 < bs) (data : List Nat) (c : MemCache)
    (rangeHdr : String) (s e : Int)
    (hscan : scanRange rangeHdr = ScanResult.full s e)
    (hs : 0 ≤ s) (hse : s ≤ e)
    (hin : goDiv e bs * bs < (data.length : Int)) :
    (roundTrip memOps bs (stdOrigin data) c "GET" rangeHdr).err = none ∧
    (roundTrip memOps bs (stdOrigin data) c "GET" rangeHdr).status
      = some 206 ∧
    (∀ b : Int, goDiv s bs ≤ b → b ≤ goDiv e bs →
      (memGet (roundTrip memOps bs (stdOrigin data) c "GET" rangeHdr).cache
        b).isSome = true) ∧
    (roundTrip memOps bs (stdOrigin data)
        (roundTrip memOps bs (stdOrigin data) c "GET" rangeHdr).cache
        "GET" rangeHdr).originCalls = 0 ∧
    (roundTrip memOps bs (stdOrigin data)
        (roundTrip memOps bs (stdOrigin data) c "GET" rangeHdr).cache
        "GET" rangeHdr).passthrough = false ∧
    (roundTrip memOps bs (stdOrigin data)
        (roundTrip memOps bs (stdOrigin data) c "GET" rangeHdr).cache
        "GET" rangeHdr).status = some 206 ∧
    (roundTrip memOps bs (stdOrigin data)
        (roundTrip memOps bs (stdOrigin data) c "GET" rangeHdr).cache
        "GET" rangeHdr).err = none := by
  have hqq : goDiv s bs ≤ goDiv e bs := by
    rw [goDiv, goDiv, Int.tdiv_eq_ediv hs (le_of_lt hbs),
      Int.tdiv_eq_ediv (by omega) (le_of_lt hbs)]
    exact Int.ediv_le_ediv hbs hse
  rw [roundTrip_cacheable memOps bs _ c rangeHdr s e hbs hscan]
  obtain ⟨h1, h2, h3, h4⟩ := cachedPath_covers bs hbs data c s e hs hse hin
  rw [roundTrip_cacheable memOps bs _ _ rangeHdr s e hbs hscan]
  have hall : ∀ b ∈ neededBlocks bs s e,
      (memOps.get (cachedPath memOps bs (stdOrigin data) c s e).cache
        b).isSome = true := by
    intro b hb
    rw [neededBlocks_eq bs s e hbs] at hb
    obtain ⟨hb1, hb2⟩ := mem_blockRun.mp hb
    exact h4 b hb1 (by omega)
  rw [cachedPath_all_hit memOps bs _ _ s e hse hall]
  exact ⟨h1, h2, h4, rfl, rfl, rfl, rfl⟩

/-- C1, witness: block size 4, 12-byte resource, request `bytes=5-6` against
an empty cache: block 1 is cached and the identical second request issues
zero origin requests. -/
theorem c1_aligned_range_cached_then_hit_free_witness :
    (roundTrip memOps 4 (stdOrigin resourceBytes12) memEmpty "GET"
        "bytes=5-6").err = none ∧
    (memGet (roundTrip memOps 4 (stdOrigin resourceBytes12) memEmpty "GET"
        "bytes=5-6").cache 1).isSome = true ∧
    (roundTrip memOps 4 (stdOrigin resourceBytes12)
        (roundTrip memOps 4 (stdOrigin resourceBytes12) memEmpty "GET"
          "bytes=5-6").cache "GET" "bytes=5-6").originCalls = 0 := by
  obtain ⟨h1, _, h3, h4, _⟩ :=
    c1_aligned_range_cached_then_hit_free 4 (by decide) resourceBytes12
      memEmpty "bytes=5-6" 5 6 (by decide) (by decide) (by decide) (by decide)
  exact ⟨h1, h3 1 (by decide) (by decide), h4⟩

/-- C5, counterexample: block size 4, resource bytes 0..11, cache holding
block 1 only.  A request `bytes=0-11` has sparse misses {0, 2}; the transport
coalesces the fetch to `bytes=0-11` but populates the i-th MISSING block from
the i-th body piece, so block 2 is stored as bytes [4,5,6,7] — the bytes the
origin served for block 1, not block 2's [8,9,10,11].  Get(2) therefore does
not return the bytes the origin served for that aligned block. -/
theorem c5_counterexample_transport_stores_wrong_bytes :
    memGet (roundTrip memOps 4 (stdOrigin resourceBytes12)
        (memPut memEmpty 1 [4, 5, 6, 7]) "GET" "bytes=0-11").cache 2
      = some [4, 5, 6, 7] ∧
    (stdOrigin resourceBytes12 8 11).snd = [8, 9, 10, 11] ∧
    some [(4 : Nat), 5, 6, 7] ≠ some [(8 : Nat), 9, 10, 11] :=
  ⟨by decide, by decide, by decide⟩

/-- A nonempty consecutive run starts at its base. -/
theorem blockRun_cons (q : Int) (k : Nat) (hk : 0 < k) :
    (List.range k).map (fun (j : Nat) => q + (j : Int))
      = q :: (List.range (k - 1)).map (fun (j : Nat) => q + 1 + (j : Int)) := by
  cases k with
  | zero => omega
  | succ k' =>
    rw [List.range_succ_eq_map]
    simp only [List.map_cons, List.map_map, Nat.add_sub_cancel, Nat.cast_zero,
      add_zero]
    refine congrArg _ (List.map_congr_left fun a _ => ?_)
    simp only [Function.comp_apply, Nat.succ_eq_add_one]
    push_cast
    ring

/-- The last element of a nonempty consecutive run. -/
theorem blockRun_getLastD (q : Int) (k : Nat) (hk : 0 < k) (d : Int) :
    ((List.range k).map (fun (j : Nat) => q + (j : Int))).getLastD d
      = q + ((k : Int) - 1) := by
  cases k with
  | zero => omega
  | succ k' =>
    rw [List.range_succ, List.map_append]
    simp only [List.map_cons, List.map_nil, List.getLastD_concat]
    push_cast
    ring

/-- The piece a contiguous populate pass stores for offset index `jj` equals
the origin's bytes for aligned block `q + jj`, at natural (clamped) length. -/
theorem stored_piece_eq (data : List Nat) (bs q K jj : Int) (hbs : 0 < bs)
    (hq : 0 ≤ q) (hj : 0 ≤ jj) (hK : jj < K)
    (hN : (q + jj) * bs < (data.length : Int)) :
    (((stdOrigin data (q * bs) ((q + K) * bs - 1)).snd.drop
        (jj * bs).toNat).take
      ((min (jj * bs + bs)
          (((stdOrigin data (q * bs) ((q + K) * bs - 1)).snd.length : Int))
        - jj * bs).toNat))
      = (data.drop ((q + jj) * bs).toNat).take bs.toNat := by
  have hbs0 : 0 ≤ bs := le_of_lt hbs
  have hqbs : (q * bs).toNat = q.toNat * bs.toNat := by
    have h : ((q.toNat * bs.toNat : Nat) : Int) = q * bs := by
      push_cast [Int.toNat_of_nonneg hq, Int.toNat_of_nonneg hbs0]
      ring
    omega
  have hjbs : (jj * bs).toNat = jj.toNat * bs.toNat := by
    have h : ((jj.toNat * bs.toNat : Nat) : Int) = jj * bs := by
      push_cast [Int.toNat_of_nonneg hj, Int.toNat_of_nonneg hbs0]
      ring
    omega
  have hKbs : ((q + K) * bs - 1 - q * bs + 1).toNat = K.toNat * bs.toNat := by
    rw [show (q + K) * bs - 1 - q * bs + 1 = K * bs from by ring]
    have h : ((K.toNat * bs.toNat : Nat) : Int) = K * bs := by
      push_cast [Int.toNat_of_nonneg (by omega : (0:Int) ≤ K),
        Int.toNat_of_nonneg hbs0]
      ring
    omega
  have hqjbs : ((q + jj) * bs).toNat = (q.toNat + jj.toNat) * bs.toNat := by
    have h : (((q.toNat + jj.toNat) * bs.toNat : Nat) : Int)
        = (q + jj) * bs := by
      push_cast [Int.toNat_of_nonneg hq, Int.toNat_of_nonneg hj,
        Int.toNat_of_nonneg hbs0]
      ring
    omega
  simp only [stdOrigin, List.length_take, List.length_drop]
  rw [hqbs, hjbs, hKbs, hqjbs]
  set B := bs.toNat with hB
  set Q := q.toNat with hQ
  set J := jj.toNat with hJ
  set K' := K.toNat with hK'
  set N := data.length with hNn
  have hBpos : 0 < B := by omega
  have hJK : J < K' := by omega
  have hNbig : (Q + J) * B < N := by
    have h : (((Q + J) * B : Nat) : Int) = (q + jj) * bs := by
      push_cast [Int.toNat_of_nonneg hq, Int.toNat_of_nonneg hj,
        Int.toNat_of_nonneg hbs0]
      ring
    omega
  have hJB : J * B + B ≤ K' * B := by
    calc J * B + B = (J + 1) * B := by ring
    _ ≤ K' * B := Nat.mul_le_mul_right B hJK
  -- take amount, in Nat
  have hT : ((min ((jj * bs : Int) + bs) ((min (K' * B) (N - Q * B) : Nat) : Int)
        - jj * bs).toNat)
      = min (J * B + B) (min (K' * B) (N - Q * B)) - J * B := by
    have h1 : ((J * B : Nat) : Int) = jj * bs := by
      push_cast [Int.toNat_of_nonneg hj, Int.toNat_of_nonneg hbs0]
      ring
    have h2 : ((B : Nat) : Int) = bs := by
      push_cast [Int.toNat_of_nonneg hbs0]
      ring
    omega
  have hsplit : Q * B + J * B = (Q + J) * B := by ring
  rw [hT, List.drop_take, List.drop_drop, List.take_take, hsplit,
    List.take_eq_take]
  simp only [List.length_drop]
  omega

/-- Indexing into a consecutive run. -/
theorem blockRun_get (q : Int) (k : Nat) (j : Nat) (hj : j < k) :
    ((List.range k).map (fun (t : Nat) => q + (t : Int))).get
        ⟨j, by simpa using hj⟩ = q + (j : Int) := by
  simp [List.get_eq_getElem, List.getElem_map, List.getElem_range]

/-- Dropping exactly the first summand of an append. -/
theorem drop_append_exact {α : Type} (l₁ l₂ : List α) (n : Nat)
    (h : l₁.length = n) : (l₁ ++ l₂).drop n = l₂ := by
  subst h
  rw [← Nat.add_zero l₁.length, List.drop_append, List.drop_zero]

/-- `MmapBlockCache.Put` followed by `Get` on an in-range block returns the
whole `blockSize` slot: the stored bytes, zero-padded to the block size. -/
theorem mmapPut_get_slot (mc : MmapCache) (b : Int) (v : List Nat)
    (hwf : mc.data.length = (mc.numBlocks * mc.blockSize).toNat)
    (hb0 : 0 ≤ b) (hbn : b < mc.numBlocks) (hbsp : 0 < mc.blockSize)
    (hvlen : (v.length : Int) ≤ mc.blockSize) :
    mmapGet (mmapPut mc b v) b
      = some (v ++ List.replicate (mc.blockSize.toNat - v.length) 0) := by
  have hvN : v.length ≤ mc.blockSize.toNat := by omega
  have hstart_le : (b * mc.blockSize).toNat + mc.blockSize.toNat
      ≤ mc.data.length := by
    rw [hwf]
    have h1 : b * mc.blockSize + mc.blockSize ≤ mc.numBlocks * mc.blockSize := by
      have := mul_le_mul_of_nonneg_right
        (show b + 1 ≤ mc.numBlocks by omega) (le_of_lt hbsp)
      calc b * mc.blockSize + mc.blockSize = (b + 1) * mc.blockSize := by ring
      _ ≤ mc.numBlocks * mc.blockSize := this
    have h2 : 0 ≤ b * mc.blockSize :=
      mul_nonneg hb0 (le_of_lt hbsp)
    omega
  unfold mmapPut
  rw [if_neg (by omega)]
  unfold mmapGet
  dsimp only
  rw [if_neg (by omega), if_neg (by simp)]
  have hslotlen : (v.take mc.blockSize.toNat
      ++ List.replicate (mc.blockSize.toNat - v.length) 0).length
      = mc.blockSize.toNat := by
    rw [List.length_append, List.length_take, List.length_replicate]
    omega
  have htakelen : (mc.data.take (b * mc.blockSize).toNat).length
      = (b * mc.blockSize).toNat := by
    rw [List.length_take]
    omega
  rw [List.append_assoc]
  rw [drop_append_exact _ _ _ htakelen]
  rw [List.take_append_of_le_length (le_of_eq hslotlen.symm)]
  rw [List.take_of_length_le (le_of_eq hslotlen)]
  rw [List.take_of_length_le hvN]

/-- C5, amended: when the needed blocks are all absent (so the missing run is
the full contiguous needed range), the transport with the in-memory cache
stores for every populated index exactly the bytes the origin served for that
aligned block — the short last block at its natural length; the mmap-backed
cache's `Get`, by contrast, returns the full `blockSize` slot with the stored
bytes zero-padded, never a short slice. -/
theorem c5_amended_population_values
    (bs : Int) (hbs : 0 < bs) (data : List Nat) (c : MemCache)
    (rangeHdr : String) (s e : Int)
    (hscan : scanRange rangeHdr = ScanResult.full s e)
    (hs : 0 ≤ s) (hse : s ≤ e)
    (hmiss : ∀ b : Int, goDiv s bs ≤ b → b ≤ goDiv e bs →
      memGet c b = none) :
    (∀ b : Int, goDiv s bs ≤ b → b ≤ goDiv e bs →
      b * bs < (data.length : Int) →
      memGet (roundTrip memOps bs (stdOrigin data) c "GET" rangeHdr).cache b
        = some ((data.drop (b * bs).toNat).take bs.toNat)) ∧
    (∀ (mc : MmapCache) (b : Int) (v : List Nat),
      mc.data.length = (mc.numBlocks * mc.blockSize).toNat →
      0 ≤ b → b < mc.numBlocks → 0 < mc.blockSize →
      (v.length : Int) ≤ mc.blockSize →
      mmapGet (mmapPut mc b v) b
        = some (v ++ List.replicate (mc.blockSize.toNat - v.length) 0)) := by
  constructor
  · have hq0 : 0 ≤ goDiv s bs := by
      rw [goDiv, Int.tdiv_eq_ediv hs (le_of_lt hbs)]
      exact Int.ediv_nonneg hs (le_of_lt hbs)
    have hqq : goDiv s bs ≤ goDiv e bs := by
      rw [goDiv, goDiv, Int.tdiv_eq_ediv hs (le_of_lt hbs),
        Int.tdiv_eq_ediv (by omega) (le_of_lt hbs)]
      exact Int.ediv_le_ediv hbs hse
    intro b hb1 hb2 hbN
    rw [roundTrip_cacheable memOps bs _ c rangeHdr s e hbs hscan]
    unfold cachedPath
    dsimp only
    rw [if_neg (not_lt.mpr hse), neededBlocks_eq bs s e hbs]
    have hkpos : 0 < (goDiv e bs - goDiv s bs + 1).toNat := by omega
    have hfil : ((List.range (goDiv e bs - goDiv s bs + 1).toNat).map
          (fun (j : Nat) => goDiv s bs + (j : Int))).filter
        (fun x => (memOps.get c x).isNone)
        = (List.range (goDiv e bs - goDiv s bs + 1).toNat).map
          (fun (j : Nat) => goDiv s bs + (j : Int)) := by
      rw [List.filter_eq_self]
      intro x hx
      obtain ⟨hx1, hx2⟩ := mem_blockRun.mp hx
      show (memGet c x).isNone = true
      rw [hmiss x hx1 (by omega)]
      rfl
    cases hfil2 : ((List.range (goDiv e bs - goDiv s bs + 1).toNat).map
        (fun (j : Nat) => goDiv s bs + (j : Int))).filter
        (fun x => (memOps.get c x).isNone) with
    | nil =>
      exfalso
      rw [hfil] at hfil2
      have hq : goDiv s bs ∈ (List.range
          (goDiv e bs - goDiv s bs + 1).toNat).map
          (fun (j : Nat) => goDiv s bs + (j : Int)) :=
        mem_blockRun.mpr ⟨le_refl _, by omega⟩
      rw [hfil2] at hq
      cases hq
    | cons m rest =>
      dsimp only
      rw [if_neg (by simp [stdOrigin])]
      have hcons : m :: rest = (List.range
          (goDiv e bs - goDiv s bs + 1).toNat).map
          (fun (j : Nat) => goDiv s bs + (j : Int)) := by
        rw [← hfil2, hfil]
      have hlenl : (m :: rest).length
          = (goDiv e bs - goDiv s bs + 1).toNat := by
        rw [hcons]
        simp
      have hm : m = goDiv s bs := by
        have h2 := hcons.trans (blockRun_cons _ _ hkpos)
        exact (List.cons_eq_cons.mp h2).1
      have hlastB : rest.getLastD m
          = goDiv s bs + (((goDiv e bs - goDiv s bs + 1).toNat : Int) - 1) := by
        rw [show rest.getLastD m = (m :: rest).getLastD 0 from
          (List.getLastD_cons 0 m rest).symm, hcons,
          blockRun_getLastD _ _ hkpos 0]
      have hlastB' : rest.getLastD m = goDiv e bs := by
        rw [hlastB]
        omega
      have hjk : (b - goDiv s bs).toNat
          < (goDiv e bs - goDiv s bs + 1).toNat := by omega
      have hjlen : (b - goDiv s bs).toNat < (m :: rest).length := by omega
      have hgetb : (m :: rest).get ⟨(b - goDiv s bs).toNat, hjlen⟩ = b := by
        have h3 := List.get_of_eq hcons ⟨(b - goDiv s bs).toNat, hjlen⟩
        rw [h3, blockRun_get _ _ _ hjk]
        omega
      have hpwm : (m :: rest).Pairwise (· < ·) := by
        rw [hcons]
        exact pairwise_blockRun _ _
      -- the fetched body covers every offset up to b's piece
      have hH : ∀ j' : Nat, j' ≤ (b - goDiv s bs).toNat →
          ((0 + j' : Nat) : Int) * bs
            < ((stdOrigin data (m * bs)
                ((rest.getLastD m + 1) * bs - 1)).snd.length : Int) := by
        intro j' hj'
        have hj'b : (j' : Int) ≤ b - goDiv s bs := by omega
        have hlen' := stdOrigin_len data (m * bs)
          ((rest.getLastD m + 1) * bs - 1)
        have hrs : ((m * bs).toNat : Int) = m * bs := by
          refine Int.toNat_of_nonneg (mul_nonneg ?_ (le_of_lt hbs))
          omega
        have hA : (((rest.getLastD m + 1) * bs - 1 - m * bs + 1).toNat : Int)
            = (rest.getLastD m + 1 - m) * bs := by
          rw [show (rest.getLastD m + 1) * bs - 1 - m * bs + 1
              = (rest.getLastD m + 1 - m) * bs from by ring]
          refine Int.toNat_of_nonneg (mul_nonneg ?_ (le_of_lt hbs))
          omega
        have hjbs : (j' : Int) * bs ≤ (b - goDiv s bs) * bs :=
          mul_le_mul_of_nonneg_right hj'b (le_of_lt hbs)
        have hstep : (b - goDiv s bs) * bs + bs
            ≤ (rest.getLastD m + 1 - m) * bs := by
          have h4 : b - goDiv s bs + 1 ≤ rest.getLastD m + 1 - m := by omega
          calc (b - goDiv s bs) * bs + bs = (b - goDiv s bs + 1) * bs := by
                ring
          _ ≤ (rest.getLastD m + 1 - m) * bs :=
            mul_le_mul_of_nonneg_right h4 (le_of_lt hbs)
        have hstep2 : (b - goDiv s bs) * bs + m * bs = b * bs := by
          rw [hm]
          ring
        simp only [Nat.zero_add]
        omega
      have hval := populate_get_val bs
        ((stdOrigin data (m * bs) ((rest.getLastD m + 1) * bs - 1)).snd)
        (m :: rest) 0 c (b - goDiv s bs).toNat hjlen hpwm hH
      rw [hgetb] at hval
      rw [hval]
      simp only [Nat.zero_add]
      rw [hlastB', hm]
      rw [show (goDiv e bs + 1) * bs - 1
          = (goDiv s bs + (goDiv e bs + 1 - goDiv s bs)) * bs - 1 from by
            ring]
      have hqjb : goDiv s bs + ((b - goDiv s bs).toNat : Int) = b := by omega
      rw [stored_piece_eq data bs (goDiv s bs) (goDiv e bs + 1 - goDiv s bs)
        ((b - goDiv s bs).toNat : Int) hbs hq0 (by omega) (by omega)
        (by rw [hqjb]; exact hbN)]
      rw [hqjb]
  · intro mc b v hwf hb0 hbn hbsp hvlen
    exact mmapPut_get_slot mc b v hwf hb0 hbn hbsp hvlen

/-- C5, witness for the amended theorem: block size 4, 6-byte resource
[10,...,15], empty cache, request `bytes=4-5`: block 1 is stored at natural
length [14,15]; and an mmap cache with block size 4 returns the padded slot
[14,15,0,0] for the same short piece. -/
theorem c5_amended_population_values_witness :
    memGet (roundTrip memOps 4 (stdOrigin [10, 11, 12, 13, 14, 15]) memEmpty
        "GET" "bytes=4-5").cache 1 = some [14, 15] ∧
    mmapGet (mmapPut ⟨List.replicate 8 0, 4, 2, fun _ => false⟩ 1 [14, 15]) 1
      = some [14, 15, 0, 0] := by
  obtain ⟨h1, h2⟩ := c5_amended_population_values 4 (by decide)
    [10, 11, 12, 13, 14, 15] memEmpty "bytes=4-5" 4 5 (by decide) (by decide)
    (by decide) (fun b hb1 hb2 => rfl)
  constructor
  · have := h1 1 (by decide) (by decide) (by decide)
    simpa using this
  · have := h2 ⟨List.replicate 8 0, 4, 2, fun _ => false⟩ 1 [14, 15]
      (by decide) (by decide) (by decide) (by decide) (by decide)
    simpa using this
